import Mathlib

/-!
Verification of the witness-calculator component of eigen-zkit
(`algebraic/src/witness/witness_calculator.rs`).

The Rust code is shallowly embedded:
* `BigInt` values become `Int`, `u32` words become `Nat` (with the
  invariant `< 2^32` where it matters), `Vec` becomes `List`.
* Functions that can panic return `Option` (`none` = panic); the
  orchestrator functions, which can also return `Err`, produce an
  `Outcome` with three constructors `ok` / `err` / `panic`.
* The WASM instance (trait `Wasm` / `CircomBase`, declared outside the
  provided sources) is an abstract deterministic state machine
  (`Bridge`): each host-bridge operation maps a state to an `Outcome`
  carrying the next state, mirroring the `Result`-returning methods the
  orchestrator calls.
-/

/-- Result of a Rust computation that may return `Ok`, return `Err`,
or diverge with a panic. -/
inductive Outcome (α : Type) where
  | ok (a : α)
  | err
  | panic
deriving DecidableEq

/-- Rust `from_array32(arr: Vec<u32>) -> BigInt`
(witness_calculator.rs lines 31-38): big-endian base-2³² decode,
`res = res * 0x100000000 + val` over the words in order. -/
def from_array32 (arr : List Nat) : Int :=
  arr.foldl (fun (res : Int) (val : Nat) => res * 4294967296 + (val : Int)) 0

/-- Loop of Rust `to_array32(s: &BigInt, size: usize) -> Vec<u32>`
(witness_calculator.rs lines 40-52).  `c` is the cursor (`size` at
entry); the loop runs while `rem != 0`.  A `none` models a panic:
either `c -= 1` underflows / indexes out of bounds (when `c = 0` with
`rem` still nonzero), or `(&rem % &radix).to_u32().unwrap()` fails
because the truncated remainder of a negative `rem` is negative.
Rust `BigInt` `%` and `/` truncate toward zero, hence `Int.tmod` /
`Int.tdiv`. -/
def to_array32_go (c : Nat) (rem : Int) (res : List Nat) : Option (List Nat) :=
  if rem = 0 then some res
  else
    match c with
    | 0 => none
    | c' + 1 =>
      if rem.tmod 4294967296 < 0 then none
      else to_array32_go c' (rem.tdiv 4294967296) (res.set c' (rem.tmod 4294967296).toNat)

/-- Rust `to_array32`: starts from `vec![0; size]` with cursor `size`. -/
def to_array32 (s : Int) (size : Nat) : Option (List Nat) :=
  to_array32_go size s (List.replicate size 0)

/-- Modelled from the spec: the `Wasm`/`CircomBase` host-bridge interface
(declared in `algebraic/src/witness/mod.rs`, which is not among the
provided sources).  Each operation is a deterministic state transformer
that may return `Ok` (with a possibly updated VM state), return `Err`,
or panic, mirroring the `Result`-returning methods the orchestrator
calls on `self.instance`. -/
structure Bridge (S : Type) where
  init : Bool → S → Outcome S
  get_field_num_len32 : S → Outcome (Nat × S)
  get_witness_size : S → Outcome (Nat × S)
  write_shared_rw_memory : Nat → Nat → S → Outcome S
  set_input_signal : Nat → Nat → Nat → S → Outcome S
  get_witness : Nat → S → Outcome S
  read_shared_rw_memory : Nat → S → Outcome (Nat × S)

/-- Modelled from the spec: `fnv(&name)` (declared in
`algebraic/src/witness/mod.rs`, not among the provided sources).
Per spec §4.3 a 64-bit Fowler–Noll–Vo-style hash with fixed offset
basis and fixed prime multiplier over the bytes of the name, split
into (hi32, lo32).  Code points stand in for UTF-8 bytes (they agree
on ASCII names); no claim depends on the hash value, only on it being
a pure function of the name. -/
def fnv (name : String) : Nat × Nat :=
  let h := name.data.foldl
    (fun (h : Nat) (c : Char) => ((h ^^^ c.toNat) * 1099511628211) % 18446744073709551616)
    14695981039346656037
  (h / 4294967296, h % 4294967296)

/-- Inner `for j in 0..n32` loop of input allocation
(witness_calculator.rs lines 164-167):
`write_shared_rw_memory(j, f_arr[n32 - 1 - j])?`.  `count` is the
number of remaining iterations (`n32` at entry, `j` starts at 0);
an out-of-bounds index models the Rust `Vec` index panic. -/
def writeLimbs {S : Type} (B : Bridge S) (f_arr : List Nat) (n32 : Nat) :
    Nat → Nat → S → Outcome S
  | 0, _, s => .ok s
  | count + 1, j, s =>
    match f_arr[n32 - 1 - j]? with
    | none => .panic
    | some v =>
      match B.write_shared_rw_memory j v s with
      | .ok s' => writeLimbs B f_arr n32 count (j + 1) s'
      | .err => .err
      | .panic => .panic

/-- `for (i, value) in values.into_iter().enumerate()` loop of
input allocation (witness_calculator.rs lines 162-169): encode the
value with `to_array32` (panic on failure), write the limbs, then
`set_input_signal(msb, lsb, i)?`. -/
def writeValues {S : Type} (B : Bridge S) (n32 msb lsb : Nat) :
    List Int → Nat → S → Outcome S
  | [], _, s => .ok s
  | v :: vs, i, s =>
    match to_array32 v n32 with
    | none => .panic
    | some f_arr =>
      match writeLimbs B f_arr n32 n32 0 s with
      | .ok s1 =>
        match B.set_input_signal msb lsb i s1 with
        | .ok s2 => writeValues B n32 msb lsb vs (i + 1) s2
        | .err => .err
        | .panic => .panic
      | .err => .err
      | .panic => .panic

/-- `for (name, values) in inputs.into_iter()` loop
(witness_calculator.rs lines 159-170). -/
def writeInputs {S : Type} (B : Bridge S) (n32 : Nat) :
    List (String × List Int) → S → Outcome S
  | [], s => .ok s
  | (name, values) :: rest, s =>
    match writeValues B n32 (fnv name).1 (fnv name).2 values 0 s with
    | .ok s' => writeInputs B n32 rest s'
    | .err => .err
    | .panic => .panic

/-- Inner `for j in 0..n32` loop of witness extraction
(witness_calculator.rs lines 177-179): `w.push(read_shared_rw_memory(j)?)`. -/
def readLimbs {S : Type} (B : Bridge S) :
    Nat → Nat → List Nat → S → Outcome (List Nat × S)
  | 0, _, acc, s => .ok (acc, s)
  | count + 1, j, acc, s =>
    match B.read_shared_rw_memory j s with
    | .ok (v, s') => readLimbs B count (j + 1) (acc ++ [v]) s'
    | .err => .err
    | .panic => .panic

/-- Outer `for i in 0..witness_size` loop of witness extraction
(witness_calculator.rs lines 175-180): `get_witness(i)?` then read the
`n32` shared-memory words. -/
def readWitness {S : Type} (B : Bridge S) (n32 : Nat) :
    Nat → Nat → List Nat → S → Outcome (List Nat × S)
  | 0, _, acc, s => .ok (acc, s)
  | count + 1, i, acc, s =>
    match B.get_witness i s with
    | .ok s1 =>
      match readLimbs B n32 0 acc s1 with
      | .ok (acc', s2) => readWitness B n32 count (i + 1) acc' s2
      | .err => .err
      | .panic => .panic
    | .err => .err
    | .panic => .panic

/-- Rust `calculate_witness_circom` (witness_calculator.rs lines
149-183): `init(sanity_check)?`, read `n32`, allocate all inputs,
then extract the flat `Vec<u32>` witness stream. -/
def calculate_witness_circom {S : Type} (B : Bridge S)
    (inputs : List (String × List Int)) (sanity_check : Bool) (s : S) :
    Outcome (List Nat × S) :=
  match B.init sanity_check s with
  | .ok s1 =>
    match B.get_field_num_len32 s1 with
    | .ok (n32, s2) =>
      match writeInputs B n32 inputs s2 with
      | .ok s3 =>
        match B.get_witness_size s3 with
        | .ok (ws, s4) => readWitness B n32 ws 0 [] s4
        | .err => .err
        | .panic => .panic
      | .err => .err
      | .panic => .panic
    | .err => .err
    | .panic => .panic
  | .err => .err
  | .panic => .panic

/-- Rust `calculate_witness_bin` (witness_calculator.rs lines 139-146):
`init(sanity_check)?` then the raw circom computation, no limb
reassembly. -/
def calculate_witness_bin {S : Type} (B : Bridge S)
    (inputs : List (String × List Int)) (sanity_check : Bool) (s : S) :
    Outcome (List Nat × S) :=
  match B.init sanity_check s with
  | .ok s1 => calculate_witness_circom B inputs sanity_check s1
  | .err => .err
  | .panic => .panic

/-- Inner `for j in 0..n32` reassembly loop of `calculate_witness`
(witness_calculator.rs lines 131-133):
`arr[(n32 - 1 - j)] = wtns_u32[(i * n32 + j)]`; `none` models the
`Vec` index panic. -/
def reassembleElem (wtns_u32 : List Nat) (n32 i : Nat) :
    Nat → Nat → List Nat → Option (List Nat)
  | 0, _, arr => some arr
  | count + 1, j, arr =>
    match wtns_u32[i * n32 + j]? with
    | none => none
    | some v => reassembleElem wtns_u32 n32 i count (j + 1) (arr.set (n32 - 1 - j) v)

/-- Outer `for i in 0..witness_size` reassembly loop of
`calculate_witness` (witness_calculator.rs lines 129-135): build the
big-endian limb array of element `i` and push `from_array32(arr)`. -/
def reassemble (wtns_u32 : List Nat) (n32 : Nat) :
    Nat → Nat → List Int → Option (List Int)
  | 0, _, acc => some acc
  | count + 1, i, acc =>
    match reassembleElem wtns_u32 n32 i n32 0 (List.replicate n32 0) with
    | none => none
    | some arr => reassemble wtns_u32 n32 count (i + 1) (acc ++ [from_array32 arr])

/-- Rust `calculate_witness` (witness_calculator.rs lines 118-137):
`init(sanity_check)?`, the circom computation, re-read `n32` and the
witness size, then reassemble each group of `n32` words (reversed)
through `from_array32`. -/
def calculate_witness {S : Type} (B : Bridge S)
    (inputs : List (String × List Int)) (sanity_check : Bool) (s : S) :
    Outcome (List Int × S) :=
  match B.init sanity_check s with
  | .ok s1 =>
    match calculate_witness_circom B inputs sanity_check s1 with
    | .ok (wtns_u32, s2) =>
      match B.get_field_num_len32 s2 with
      | .ok (n32, s3) =>
        match B.get_witness_size s3 with
        | .ok (ws, s4) =>
          match reassemble wtns_u32 n32 ws 0 [] with
          | none => .panic
          | some wo => .ok (wo, s4)
        | .err => .err
        | .panic => .panic
      | .err => .err
      | .panic => .panic
    | .err => .err
    | .panic => .panic
  | .err => .err
  | .panic => .panic

/-- The modulus hardcoded in `calculate_witness_element`
(witness_calculator.rs lines 265-267): the BN254 scalar-field prime. -/
def bn254_modulus : Nat :=
  21888242871839275222246405745257275088548364400416034343698204186575808495617

/-- Per-value mapping of `calculate_witness_element`
(witness_calculator.rs lines 273-279), up to (but not including) the
external `E::Fr::from_str` conversion: a negative value `w` becomes
`modulus - |w|` (`none` models the `BigUint` subtraction panic when
`|w|` exceeds the hardcoded modulus), a non-negative one is used
as-is. -/
def witness_to_element (w : Int) : Option Nat :=
  if w < 0 then
    if w.natAbs ≤ bn254_modulus then some (bn254_modulus - w.natAbs) else none
  else some w.toNat

/-- The `.map(...).collect()` over the witness vector
(witness_calculator.rs lines 271-282). -/
def elements_of : List Int → Option (List Nat)
  | [] => some []
  | w :: ws =>
    match witness_to_element w with
    | none => none
    | some e =>
      match elements_of ws with
      | none => none
      | some es => some (e :: es)

/-- Rust `calculate_witness_element` (witness_calculator.rs lines
256-285), with the result represented by the arbitrary-precision
values handed to the external field type `E::Fr`. -/
def calculate_witness_element {S : Type} (B : Bridge S)
    (inputs : List (String × List Int)) (sanity_check : Bool) (s : S) :
    Outcome (List Nat × S) :=
  match calculate_witness B inputs sanity_check s with
  | .ok (witness, s1) =>
    match elements_of witness with
    | none => .panic
    | some es => .ok (es, s1)
  | .err => .err
  | .panic => .panic

/-- Witness for C5: a concrete bridge with `n32 = 1`, `ws = 1`. -/
def trivBridge : Bridge Unit where
  init := fun _ s => .ok s
  get_field_num_len32 := fun s => .ok (1, s)
  get_witness_size := fun s => .ok (1, s)
  write_shared_rw_memory := fun _ _ s => .ok s
  set_input_signal := fun _ _ _ s => .ok s
  get_witness := fun _ s => .ok s
  read_shared_rw_memory := fun _ s => .ok (5, s)

/-- A bridge none of whose operations fails (`Ok` on every call). -/
structure TotalBridge {S : Type} (B : Bridge S) : Prop where
  init : ∀ b s, ∃ s', B.init b s = .ok s'
  len32 : ∀ s, ∃ r, B.get_field_num_len32 s = .ok r
  wsize : ∀ s, ∃ r, B.get_witness_size s = .ok r
  write : ∀ j v s, ∃ s', B.write_shared_rw_memory j v s = .ok s'
  setsig : ∀ a b i s, ∃ s', B.set_input_signal a b i s = .ok s'
  getw : ∀ i s, ∃ s', B.get_witness i s = .ok s'
  read : ∀ j s, ∃ r, B.read_shared_rw_memory j s = .ok r

/-- Bytes of one `write_u32::<LittleEndian>` call. -/
def u32LE (v : Nat) : List Nat :=
  [v % 256, v / 256 % 256, v / 65536 % 256, v / 16777216 % 256]

/-- Bytes of one `write_u64::<LittleEndian>` call. -/
def u64LE (v : Nat) : List Nat :=
  [v % 256, v / 256 % 256, v / 65536 % 256, v / 16777216 % 256,
   v / 4294967296 % 256, v / 1099511627776 % 256,
   v / 281474976710656 % 256, v / 72057594037927936 % 256]

/-- Magnitude bytes of `num_bigint::BigInt::to_bytes_le` (external
crate) for a positive value: minimal little-endian base-256 digits,
no trailing zero byte.  The first argument is recursion fuel; it
starts at `n` and never runs out because `n / 256 < n` for `n > 0`. -/
def natBytesLEgo : Nat → Nat → List Nat
  | _, 0 => []
  | 0, _ + 1 => []
  | fuel + 1, n + 1 => ((n + 1) % 256) :: natBytesLEgo fuel ((n + 1) / 256)

def natBytesLE (n : Nat) : List Nat := natBytesLEgo n n

/-- Byte stream of the payload loop `for i in 0..wtns.len()`
(witness_calculator.rs lines 250-252): each word as little-endian
`u32`. -/
def wordsBytes : List Nat → List Nat
  | [] => []
  | w :: ws => u32LE w ++ wordsBytes ws

/-- Rust `save_witness_from_bin_writer` (witness_calculator.rs lines
201-254), with the writer modeled as a byte accumulator: the result is
the call outcome paired with the bytes written up to the return point.
`n32` is the value `get_field_num_len32` reports, `prime` the cached
`self.memory.prime`, `version` the cached `circom_version`.  `u32`
arithmetic wraps (`% 2^32`); `wtns.len() as u32` truncates; the
division `wtns.len() as u32 / n32` panics when `n32 = 0`. -/
def save_witness_from_bin_writer (n32 : Nat) (prime : Int) (version : Nat)
    (wtns : List Nat) : Outcome Unit × List Nat :=
  let fieldSize := (n32 * 4) % 4294967296
  let secSize := (n32 * 4 + 8) % 4294967296
  let hdr := [119, 116, 110, 115] ++ u32LE version ++ u32LE 2 ++ u32LE 1
    ++ u64LE secSize ++ u32LE fieldSize
  if prime ≤ 0 then (.err, hdr)
  else
    let primeBuf := natBytesLE prime.toNat
    if primeBuf.length % 4294967296 ≠ fieldSize then (.err, hdr)
    else if n32 = 0 then (.panic, hdr ++ primeBuf)
    else
      let wtnsSize := (wtns.length % 4294967296) / n32
      (.ok (), hdr ++ primeBuf ++ u32LE wtnsSize ++ u32LE 2
        ++ u64LE ((wtnsSize * fieldSize) % 4294967296) ++ wordsBytes wtns)

/-- The 28 bytes written before the modulus validation: magic, version,
section count, section-1 id, section-1 size, field byte width. -/
def wtnsHeader (n32 version : Nat) : List Nat :=
  [119, 116, 110, 115] ++ u32LE version ++ u32LE 2 ++ u32LE 1
    ++ u64LE ((n32 * 4 + 8) % 4294967296) ++ u32LE ((n32 * 4) % 4294967296)

theorem from_array32_foldl (l : List Nat) (a : Int) :
    List.foldl (fun (res : Int) (val : Nat) => res * 4294967296 + (val : Int)) a l
      = a * 4294967296 ^ l.length + from_array32 l := by
  induction l generalizing a with
  | nil => simp [from_array32]
  | cons x xs ih =>
    simp only [List.foldl_cons, List.length_cons, from_array32]
    rw [ih (a * 4294967296 + (x : Int)), ih ((0 : Int) * 4294967296 + (x : Int))]
    ring

theorem from_array32_concat (l : List Nat) (x : Nat) :
    from_array32 (l ++ [x]) = from_array32 l * 4294967296 + (x : Int) := by
  have h := from_array32_foldl [x] (from_array32 l)
  simp only [from_array32, List.foldl_append] at *
  simpa [from_array32] using h

theorem from_array32_cons (x : Nat) (xs : List Nat) :
    from_array32 (x :: xs) = (x : Int) * 4294967296 ^ xs.length + from_array32 xs := by
  have h := from_array32_foldl xs ((0 : Int) * 4294967296 + (x : Int))
  simp only [from_array32, List.foldl_cons] at *
  rw [h]; ring

theorem from_array32_nonneg (l : List Nat) : 0 ≤ from_array32 l := by
  induction l with
  | nil => simp [from_array32]
  | cons x xs ih =>
    rw [from_array32_cons]
    have hx : (0 : Int) ≤ (x : Int) := Int.ofNat_nonneg x
    positivity

theorem from_array32_replicate_zero (n : Nat) : from_array32 (List.replicate n 0) = 0 := by
  induction n with
  | zero => simp [from_array32]
  | succ n ih => rw [List.replicate_succ, from_array32_cons]; simp [ih]

theorem list_set_append_cons (l1 : List Nat) (x v : Nat) (l2 : List Nat) :
    (l1 ++ x :: l2).set l1.length v = l1 ++ v :: l2 := by
  induction l1 with
  | nil => rfl
  | cons y ys ih => simpa using ih

theorem to_array32_go_length (c : Nat) :
    ∀ (rem : Int) (res out : List Nat), to_array32_go c rem res = some out →
      out.length = res.length := by
  induction c with
  | zero =>
    intro rem res out h
    rw [to_array32_go] at h
    by_cases hz : rem = 0 <;> simp [hz] at h
    rw [h]
  | succ c' ih =>
    intro rem res out h
    rw [to_array32_go] at h
    by_cases hz : rem = 0
    · simp [hz] at h; rw [h]
    · simp only [hz, if_false] at h
      by_cases hm : rem.tmod 4294967296 < 0
      · simp [hm] at h
      · simp only [hm, if_false] at h
        have := ih _ _ _ h
        simpa using this

theorem to_array32_go_eq (c : Nat) :
    ∀ (rem : Int) (tail : List Nat), 0 ≤ rem → rem < 4294967296 ^ c →
      ∃ arr, to_array32_go c rem (List.replicate c 0 ++ tail) = some (arr ++ tail)
        ∧ arr.length = c ∧ from_array32 arr = rem := by
  induction c with
  | zero =>
    intro rem tail h0 h1
    simp only [pow_zero] at h1
    have hz : rem = 0 := by omega
    subst hz
    refine ⟨[], ?_, rfl, by simp [from_array32]⟩
    rw [to_array32_go]; simp
  | succ c' ih =>
    intro rem tail h0 h1
    by_cases hz : rem = 0
    · subst hz
      refine ⟨List.replicate (c' + 1) 0, ?_, by simp, from_array32_replicate_zero _⟩
      rw [to_array32_go]; simp
    · have hm0 : 0 ≤ rem.tmod 4294967296 := Int.tmod_nonneg _ h0
      have hmlt : rem.tmod 4294967296 < 4294967296 := Int.tmod_lt_of_pos rem (by norm_num)
      have hd0 : 0 ≤ rem.tdiv 4294967296 := by
        rw [Int.tdiv_eq_ediv h0 (by norm_num)]
        exact Int.ediv_nonneg h0 (by norm_num)
      have hdlt : rem.tdiv 4294967296 < 4294967296 ^ c' := by
        rw [Int.tdiv_eq_ediv h0 (by norm_num)]
        rw [Int.ediv_lt_iff_lt_mul (by norm_num)]
        calc rem < 4294967296 ^ (c' + 1) := h1
          _ = 4294967296 ^ c' * 4294967296 := by ring
      have hset : (List.replicate (c' + 1) 0 ++ tail).set c' ((rem.tmod 4294967296).toNat)
          = List.replicate c' 0 ++ ((rem.tmod 4294967296).toNat :: tail) := by
        rw [List.replicate_succ' c' 0, List.append_assoc]
        have := list_set_append_cons (List.replicate c' 0) 0 ((rem.tmod 4294967296).toNat) tail
        simpa using this
      have step : to_array32_go (c' + 1) rem (List.replicate (c' + 1) 0 ++ tail)
          = to_array32_go c' (rem.tdiv 4294967296)
              (List.replicate c' 0 ++ ((rem.tmod 4294967296).toNat :: tail)) := by
        rw [to_array32_go]
        simp only [hz, if_false, not_lt.mpr hm0, if_false, hset]
      obtain ⟨arr, ha, hl, hv⟩ := ih (rem.tdiv 4294967296)
        ((rem.tmod 4294967296).toNat :: tail) hd0 hdlt
      refine ⟨arr ++ [(rem.tmod 4294967296).toNat], ?_, by simp [hl], ?_⟩
      · rw [step, ha]; simp
      · rw [from_array32_concat, hv, Int.toNat_of_nonneg hm0]
        have hdm := Int.tdiv_add_tmod rem 4294967296
        linarith

/-- C1: for every width `w ≥ 1` and every `0 ≤ v < 2^(32·w)`, encoding `v`
with `to_array32` succeeds and decoding the result with `from_array32`
gives back `v`. -/
theorem c1_limb_codec_roundtrip (w : Nat) (v : Int)
    (hw : 1 ≤ w) (h0 : 0 ≤ v) (hv : v < 2 ^ (32 * w)) :
    ∃ arr, to_array32 v w = some arr ∧ from_array32 arr = v := by
  have hpow : (2 : Int) ^ (32 * w) = 4294967296 ^ w := by
    rw [pow_mul]; norm_num
  obtain ⟨arr, ha, _, hval⟩ := to_array32_go_eq w v [] h0 (by rw [← hpow]; exact hv)
  refine ⟨arr, ?_, hval⟩
  simpa [to_array32] using ha

/-- Witness for C1 at `w = 1`, `v = 5`. -/
theorem c1_limb_codec_roundtrip_witness :
    ∃ arr, to_array32 5 1 = some arr ∧ from_array32 arr = 5 :=
  c1_limb_codec_roundtrip 1 5 (by norm_num) (by norm_num) (by norm_num)

theorem to_array32_go_none_of_ge (c : Nat) :
    ∀ (rem : Int) (res : List Nat), 4294967296 ^ c ≤ rem →
      to_array32_go c rem res = none := by
  induction c with
  | zero =>
    intro rem res h
    simp only [pow_zero] at h
    rw [to_array32_go]
    simp [show ¬ rem = 0 by omega]
  | succ c' ih =>
    intro rem res h
    have hpos : (0 : Int) < 4294967296 ^ (c' + 1) := by positivity
    have h0 : 0 ≤ rem := le_trans (le_of_lt hpos) h
    have hz : ¬ rem = 0 := by
      intro e; rw [e] at h; exact absurd (lt_of_lt_of_le hpos h) (lt_irrefl 0)
    have hm0 : 0 ≤ rem.tmod 4294967296 := Int.tmod_nonneg _ h0
    rw [to_array32_go]
    simp only [hz, if_false, not_lt.mpr hm0, if_false]
    apply ih
    rw [Int.tdiv_eq_ediv h0 (by norm_num), Int.le_ediv_iff_mul_le (by norm_num)]
    calc 4294967296 ^ c' * 4294967296 = 4294967296 ^ (c' + 1) := by ring
      _ ≤ rem := h

/-- C7: encoding a value `v ≥ 2^(32·w)` into a `w`-limb array does not
return normally (`none` models the Rust panic: the cursor underflows /
indexes out of bounds); no silently truncated array is produced. -/
theorem c7_to_array32_overflow_panics (w : Nat) (v : Int)
    (h : 2 ^ (32 * w) ≤ v) : to_array32 v w = none := by
  have hpow : (2 : Int) ^ (32 * w) = 4294967296 ^ w := by
    rw [pow_mul]; norm_num
  exact to_array32_go_none_of_ge w v _ (by rw [← hpow]; exact h)

/-- Witness for C7 at `w = 1`, `v = 2^32`. -/
theorem c7_to_array32_overflow_panics_witness : to_array32 4294967296 1 = none :=
  c7_to_array32_overflow_panics 1 4294967296 (by norm_num)

theorem to_array32_go_none_of_neg (c : Nat) :
    ∀ (rem : Int) (res : List Nat), rem < 0 → to_array32_go c rem res = none := by
  induction c with
  | zero =>
    intro rem res h
    rw [to_array32_go]; simp [show ¬ rem = 0 by omega]
  | succ c' ih =>
    intro rem res h
    rw [to_array32_go]
    simp only [show ¬ rem = 0 by omega, if_false]
    by_cases hm : rem.tmod 4294967296 < 0
    · simp [hm]
    · simp only [hm, if_false]
      apply ih
      push_neg at hm
      have hdm := Int.tdiv_add_tmod rem 4294967296
      by_contra h'
      push_neg at h'
      linarith

/-- `to_array32` on any negative value panics (models
`(&rem % &radix).to_u32().unwrap()` failing on a negative remainder, or
the cursor underflow when the width is 0). -/
theorem to_array32_neg_panics (s : Int) (size : Nat) (h : s < 0) :
    to_array32 s size = none :=
  to_array32_go_none_of_neg size s _ h

theorem list_drop_set {α : Type} (l : List α) (k : Nat) (v : α) :
    ∀ _ : k < l.length, (l.set k v).drop k = v :: l.drop (k + 1) := by
  induction l generalizing k with
  | nil => intro h; simp at h
  | cons x xs ih =>
    intro h
    cases k with
    | zero => simp
    | succ k' =>
      simp only [List.set_cons_succ, List.drop_succ_cons]
      exact ih k' (by simpa using h)

theorem readLimbs_length {S : Type} (B : Bridge S) :
    ∀ (count j : Nat) (acc : List Nat) (s : S) (acc' : List Nat) (s' : S),
      readLimbs B count j acc s = .ok (acc', s') → acc'.length = acc.length + count := by
  intro count
  induction count with
  | zero =>
    intro j acc s acc' s' h
    simp only [readLimbs] at h
    simp at h
    simp [← h.1]
  | succ c ih =>
    intro j acc s acc' s' h
    rw [readLimbs] at h
    split at h
    · have := ih _ _ _ _ _ h
      simp at this
      omega
    · exact Outcome.noConfusion h
    · exact Outcome.noConfusion h

theorem readWitness_length {S : Type} (B : Bridge S) (n32 : Nat) :
    ∀ (count i : Nat) (acc : List Nat) (s : S) (acc' : List Nat) (s' : S),
      readWitness B n32 count i acc s = .ok (acc', s') →
        acc'.length = acc.length + count * n32 := by
  intro count
  induction count with
  | zero =>
    intro i acc s acc' s' h
    simp only [readWitness] at h
    simp at h
    simp [← h.1]
  | succ c ih =>
    intro i acc s acc' s' h
    rw [readWitness] at h
    split at h
    · split at h
      · rename_i acc1 s2 _
        have h1 := readLimbs_length B n32 0 acc _ acc1 s2 (by assumption)
        have h2 := ih _ _ _ _ _ h
        rw [Nat.succ_mul]
        omega
      · exact Outcome.noConfusion h
      · exact Outcome.noConfusion h
    · exact Outcome.noConfusion h
    · exact Outcome.noConfusion h

theorem circom_ok_length {S : Type} (B : Bridge S) (n32 ws : Nat)
    (hn : ∀ s, B.get_field_num_len32 s = .ok (n32, s))
    (hw : ∀ s, B.get_witness_size s = .ok (ws, s))
    (inputs : List (String × List Int)) (sc : Bool) (s : S)
    (u : List Nat) (s2 : S)
    (h : calculate_witness_circom B inputs sc s = .ok (u, s2)) :
    u.length = ws * n32 := by
  rw [calculate_witness_circom] at h
  split at h
  · rename_i s1 heq1
    split at h
    · rename_i p s2' heq2
      rw [hn s1] at heq2
      simp at heq2
      obtain ⟨rfl, rfl⟩ := heq2
      split at h
      · rename_i s3 heq3
        split at h
        · rename_i q s4 heq4
          rw [hw s3] at heq4
          simp at heq4
          obtain ⟨rfl, rfl⟩ := heq4
          have := readWitness_length B n32 ws 0 [] _ u s2 h
          simpa using this
        · exact Outcome.noConfusion h
        · exact Outcome.noConfusion h
      · exact Outcome.noConfusion h
      · exact Outcome.noConfusion h
    · exact Outcome.noConfusion h
    · exact Outcome.noConfusion h
  · exact Outcome.noConfusion h
  · exact Outcome.noConfusion h

theorem reassembleElem_eq (u : List Nat) (n32 i : Nat)
    (hlen : (i + 1) * n32 ≤ u.length) :
    ∀ (count j : Nat) (arr : List Nat), count + j = n32 → arr.length = n32 →
      reassembleElem u n32 i count j arr
        = some ((((u.drop (i * n32)).take n32).drop j).reverse ++ arr.drop (n32 - j)) := by
  intro count
  induction count with
  | zero =>
    intro j arr hc ha
    have hj : j = n32 := by omega
    have hsl : ((u.drop (i * n32)).take n32).length ≤ n32 := List.length_take_le _ _
    rw [reassembleElem, hj]
    rw [List.drop_eq_nil_of_le hsl]
    simp
  | succ c ihc =>
    intro j arr hc ha
    have hj : j < n32 := by omega
    have hmul : (i + 1) * n32 = i * n32 + n32 := by ring
    have hidx : i * n32 + j < u.length := by omega
    have hv : u[i * n32 + j]? = some u[i * n32 + j] := List.getElem?_eq_getElem hidx
    rw [reassembleElem]
    simp only [hv]
    rw [ihc (j + 1) (arr.set (n32 - 1 - j) u[i * n32 + j]) (by omega) (by simpa using ha)]
    congr 1
    have hslice_len : ((u.drop (i * n32)).take n32).length = n32 := by
      rw [List.length_take, List.length_drop]
      omega
    have hjs : j < ((u.drop (i * n32)).take n32).length := by omega
    have hsj : ((u.drop (i * n32)).take n32)[j] = u[i * n32 + j] := by
      rw [List.getElem_take, List.getElem_drop]
    have hdropj : ((u.drop (i * n32)).take n32).drop j
        = u[i * n32 + j] :: ((u.drop (i * n32)).take n32).drop (j + 1) := by
      rw [List.drop_eq_getElem_cons hjs, hsj]
    have hk : n32 - 1 - j < arr.length := by omega
    have hdrop_set : (arr.set (n32 - 1 - j) u[i * n32 + j]).drop (n32 - (j + 1))
        = u[i * n32 + j] :: arr.drop (n32 - j) := by
      have e1 : n32 - (j + 1) = n32 - 1 - j := by omega
      have e2 : n32 - 1 - j + 1 = n32 - j := by omega
      rw [e1, list_drop_set arr (n32 - 1 - j) _ hk, e2]
    rw [hdrop_set, hdropj, List.reverse_cons, List.append_assoc]
    simp

theorem reassemble_eq (u : List Nat) (n32 ws : Nat) (hlen : ws * n32 ≤ u.length) :
    ∀ (count i : Nat) (acc : List Int), count + i = ws →
      reassemble u n32 count i acc
        = some (acc ++ (List.range' i count).map
            (fun t => from_array32 (((u.drop (t * n32)).take n32).reverse))) := by
  intro count
  induction count with
  | zero =>
    intro i acc hc
    simp [reassemble]
  | succ c ihc =>
    intro i acc hc
    have hi : (i + 1) * n32 ≤ u.length := by
      calc (i + 1) * n32 ≤ ws * n32 := Nat.mul_le_mul_right _ (by omega)
        _ ≤ u.length := hlen
    have hrep : (List.replicate n32 (0 : Nat)).drop (n32 - 0) = [] := by
      simp
    rw [reassemble]
    simp only [reassembleElem_eq u n32 i hi n32 0 (List.replicate n32 0) (by omega) (by simp),
      List.drop_zero, hrep, List.append_nil]
    rw [ihc (i + 1) _ (by omega)]
    rw [List.range'_succ i c 1]
    simp

theorem reassemble_nonneg (u : List Nat) (n32 : Nat) :
    ∀ (count i : Nat) (acc out : List Int),
      reassemble u n32 count i acc = some out → (∀ x ∈ acc, 0 ≤ x) →
        ∀ x ∈ out, 0 ≤ x := by
  intro count
  induction count with
  | zero =>
    intro i acc out h hacc
    simp only [reassemble] at h
    simp at h
    rw [← h]
    exact hacc
  | succ c ihc =>
    intro i acc out h hacc
    rw [reassemble] at h
    split at h
    · exact Option.noConfusion h
    · rename_i arr _
      refine ihc _ _ _ h ?_
      intro x hx
      rcases List.mem_append.mp hx with hx | hx
      · exact hacc x hx
      · simp at hx
        rw [hx]
        exact from_array32_nonneg arr

theorem calculate_witness_ok_inv {S : Type} (B : Bridge S) (n32 ws : Nat)
    (hn : ∀ s, B.get_field_num_len32 s = .ok (n32, s))
    (hw : ∀ s, B.get_witness_size s = .ok (ws, s))
    (inputs : List (String × List Int)) (sc : Bool) (s : S)
    (wo : List Int) (s1 : S)
    (h : calculate_witness B inputs sc s = .ok (wo, s1)) :
    ∃ s' u s2, B.init sc s = .ok s'
      ∧ calculate_witness_circom B inputs sc s' = .ok (u, s2)
      ∧ u.length = ws * n32
      ∧ wo = (List.range ws).map
          (fun t => from_array32 (((u.drop (t * n32)).take n32).reverse)) := by
  rw [calculate_witness] at h
  split at h
  · rename_i s' heq_init
    split at h
    · rename_i p u s2 heq_cir
      have hulen : u.length = ws * n32 :=
        circom_ok_length B n32 ws hn hw inputs sc s' u s2 heq_cir
      split at h
      · rename_i q n32' s3 heq_n
        rw [hn s2] at heq_n
        simp at heq_n
        obtain ⟨rfl, rfl⟩ := heq_n
        split at h
        · rename_i r ws' s4 heq_w
          rw [hw s2] at heq_w
          simp at heq_w
          obtain ⟨rfl, rfl⟩ := heq_w
          split at h
          · exact Outcome.noConfusion h
          · rename_i wo' heq_r
            rw [reassemble_eq u n32 ws (le_of_eq hulen.symm) ws 0 [] (by omega)] at heq_r
            simp at heq_r
            simp at h
            refine ⟨s', u, s2, heq_init, heq_cir, hulen, ?_⟩
            rw [← h.1, ← heq_r]
            rw [List.range_eq_range' ws]
        · exact Outcome.noConfusion h
        · exact Outcome.noConfusion h
      · exact Outcome.noConfusion h
      · exact Outcome.noConfusion h
    · exact Outcome.noConfusion h
    · exact Outcome.noConfusion h
  · exact Outcome.noConfusion h
  · exact Outcome.noConfusion h

/-- C5: whenever `calculate_witness` returns `Ok`, the vector has exactly
`witness_size` elements (the size reported by the instance); any
host-bridge failure instead yields `err` (and no vector at all), so no
partial witness is observable. -/
theorem c5_calculate_witness_size {S : Type} (B : Bridge S) (n32 ws : Nat)
    (hn : ∀ s, B.get_field_num_len32 s = .ok (n32, s))
    (hw : ∀ s, B.get_witness_size s = .ok (ws, s))
    (inputs : List (String × List Int)) (sc : Bool) (s : S)
    (wo : List Int) (s1 : S)
    (h : calculate_witness B inputs sc s = .ok (wo, s1)) :
    wo.length = ws := by
  obtain ⟨s', u, s2, _, _, _, hwo⟩ :=
    calculate_witness_ok_inv B n32 ws hn hw inputs sc s wo s1 h
  rw [hwo]
  simp

/-- C2: when `calculate_witness` and `calculate_witness_bin` both succeed
on the same instance, inputs and sanity flag, the `i`-th element of the
former is `from_array32` of the reversal of words
`i*n32 .. (i+1)*n32 - 1` of the latter's flat word vector, for every
witness index `i`. -/
theorem c2_bin_refines_calculate_witness {S : Type} (B : Bridge S) (n32 ws : Nat)
    (hn : ∀ s, B.get_field_num_len32 s = .ok (n32, s))
    (hw : ∀ s, B.get_witness_size s = .ok (ws, s))
    (inputs : List (String × List Int)) (sc : Bool) (s : S)
    (wo : List Int) (s1 : S) (w : List Nat) (s2 : S)
    (h1 : calculate_witness B inputs sc s = .ok (wo, s1))
    (h2 : calculate_witness_bin B inputs sc s = .ok (w, s2)) :
    ∀ i < ws, wo[i]? = some (from_array32 (((w.drop (i * n32)).take n32).reverse)) := by
  obtain ⟨s', u, s2', heq_init, heq_cir, hulen, hwo⟩ :=
    calculate_witness_ok_inv B n32 ws hn hw inputs sc s wo s1 h1
  rw [calculate_witness_bin] at h2
  simp only [heq_init] at h2
  rw [heq_cir] at h2
  simp at h2
  obtain ⟨rfl, rfl⟩ := h2
  intro i hi
  rw [hwo]
  rw [List.getElem?_map, List.getElem?_range hi]
  rfl

theorem c5_calculate_witness_size_witness :
    ([(5 : Int)] : List Int).length = 1 :=
  c5_calculate_witness_size trivBridge 1 1 (fun _ => rfl) (fun _ => rfl)
    [] true () [(5 : Int)] () (by decide)

theorem c2_bin_refines_calculate_witness_witness :
    ([(5 : Int)] : List Int)[0]?
      = some (from_array32 (((([5] : List Nat).drop (0 * 1)).take 1).reverse)) :=
  c2_bin_refines_calculate_witness trivBridge 1 1 (fun _ => rfl) (fun _ => rfl)
    [] true () [(5 : Int)] () [5] () (by decide) (by decide) 0 (by decide)

theorem calculate_witness_nonneg {S : Type} (B : Bridge S)
    (inputs : List (String × List Int)) (sc : Bool) (s : S)
    (wo : List Int) (s1 : S)
    (h : calculate_witness B inputs sc s = .ok (wo, s1)) :
    ∀ w ∈ wo, 0 ≤ w := by
  rw [calculate_witness] at h
  split at h
  · split at h
    · split at h
      · split at h
        · split at h
          · exact Outcome.noConfusion h
          · rename_i wo' heq_r
            simp at h
            obtain ⟨rfl, rfl⟩ := h
            exact reassemble_nonneg _ _ _ _ _ _ heq_r
              (fun x hx => absurd hx (List.not_mem_nil x))
        · exact Outcome.noConfusion h
        · exact Outcome.noConfusion h
      · exact Outcome.noConfusion h
      · exact Outcome.noConfusion h
    · exact Outcome.noConfusion h
    · exact Outcome.noConfusion h
  · exact Outcome.noConfusion h
  · exact Outcome.noConfusion h

theorem elements_of_nonneg_eq (ws : List Int) (hws : ∀ w ∈ ws, 0 ≤ w) :
    elements_of ws = some (ws.map Int.toNat) := by
  induction ws with
  | nil => rfl
  | cons w rest ih =>
    have hw : 0 ≤ w := hws w (by simp)
    have hel : witness_to_element w = some w.toNat := by
      rw [witness_to_element]
      simp [not_lt.mpr hw]
    rw [elements_of]
    simp only [hel, ih (fun x hx => hws x (by simp [hx])), List.map_cons]

/-- C8: `from_array32` only produces non-negative integers, so every
value handed back by `calculate_witness` is non-negative: the
negative-sign branch of the element mapping (`modulus - |w|`) is
unreachable (the branch guard `w < 0` is false and the mapping always
takes the unchanged branch). -/
theorem c8_sign_branch_unreachable :
    (∀ arr : List Nat, 0 ≤ from_array32 arr)
    ∧ ∀ (S : Type) (B : Bridge S) (inputs : List (String × List Int)) (sc : Bool)
        (s : S) (wo : List Int) (s1 : S),
        calculate_witness B inputs sc s = .ok (wo, s1) →
        ∀ w ∈ wo, ¬ w < 0 ∧ witness_to_element w = some w.toNat := by
  constructor
  · exact from_array32_nonneg
  · intro S B inputs sc s wo s1 h w hw
    have h0 := calculate_witness_nonneg B inputs sc s wo s1 h w hw
    refine ⟨not_lt.mpr h0, ?_⟩
    rw [witness_to_element]
    simp [not_lt.mpr h0]

/-- Witness for C8 on the concrete bridge run returning `[5]`. -/
theorem c8_sign_branch_unreachable_witness :
    0 ≤ from_array32 [5]
    ∧ (¬ (5 : Int) < 0 ∧ witness_to_element 5 = some (5 : Int).toNat) :=
  ⟨c8_sign_branch_unreachable.1 [5],
   c8_sign_branch_unreachable.2 Unit trivBridge [] true () [(5 : Int)] ()
     (by decide) 5 (by decide)⟩

/-- C4: for every witness value `w` produced by `calculate_witness`, the
value `calculate_witness_element` hands to the field type is
`m - |w|` when `w` is negative and `w` unchanged otherwise — and this
holds with `m` instantiated to any modulus whatsoever, in particular
the one cached on the instance at load time, because the produced
values are never negative (C8), so the conditional always takes the
unchanged branch and never consults a modulus. -/
theorem c4_element_mapping {S : Type} (B : Bridge S)
    (inputs : List (String × List Int)) (sc : Bool) (s : S)
    (wo : List Int) (s1 : S) (es : List Nat) (s2 : S) (m : Nat)
    (h1 : calculate_witness B inputs sc s = .ok (wo, s1))
    (h2 : calculate_witness_element B inputs sc s = .ok (es, s2)) :
    ∀ i < wo.length, ∀ w, wo[i]? = some w →
      es[i]? = some (if w < 0 then m - w.natAbs else w.toNat) := by
  have hnn := calculate_witness_nonneg B inputs sc s wo s1 h1
  rw [calculate_witness_element] at h2
  simp only [h1] at h2
  rw [elements_of_nonneg_eq wo hnn] at h2
  simp at h2
  obtain ⟨rfl, rfl⟩ := h2
  intro i hi w hwi
  have hw : w ∈ wo := List.getElem?_mem hwi
  have h0 := hnn w hw
  rw [List.getElem?_map, hwi]
  simp [not_lt.mpr h0]

/-- Witness for C4 on the concrete bridge run, with `m` instantiated to
the hardcoded modulus. -/
theorem c4_element_mapping_witness :
    ([(5 : Nat)] : List Nat)[0]?
      = some (if (5 : Int) < 0 then bn254_modulus - (5 : Int).natAbs
              else (5 : Int).toNat) :=
  c4_element_mapping trivBridge [] true () [(5 : Int)] () [5] () bn254_modulus
    (by decide) (by decide) 0 (by decide) 5 (by decide)

theorem writeLimbs_ok {S : Type} (B : Bridge S) (hB : TotalBridge B)
    (f_arr : List Nat) (n32 : Nat) (hf : f_arr.length = n32) :
    ∀ (count j : Nat) (s : S), count + j ≤ n32 →
      ∃ s', writeLimbs B f_arr n32 count j s = .ok s' := by
  intro count
  induction count with
  | zero => intro j s _; exact ⟨s, rfl⟩
  | succ c ih =>
    intro j s h
    have hidx : n32 - 1 - j < f_arr.length := by omega
    have hv : f_arr[n32 - 1 - j]? = some f_arr[n32 - 1 - j] :=
      List.getElem?_eq_getElem hidx
    obtain ⟨s1, hs1⟩ := hB.write j f_arr[n32 - 1 - j] s
    rw [writeLimbs]
    simp only [hv, hs1]
    exact ih (j + 1) s1 (by omega)

theorem writeValues_not_err {S : Type} (B : Bridge S) (hB : TotalBridge B)
    (n32 msb lsb : Nat) :
    ∀ (vals : List Int) (i : Nat) (s : S),
      writeValues B n32 msb lsb vals i s ≠ .err := by
  intro vals
  induction vals with
  | nil => intro i s; simp [writeValues]
  | cons v vs ih =>
    intro i s
    rw [writeValues]
    cases hta : to_array32 v n32 with
    | none => simp
    | some f_arr =>
      have hflen : f_arr.length = n32 := by
        have := to_array32_go_length n32 v (List.replicate n32 0) f_arr hta
        simpa using this
      obtain ⟨s1, hs1⟩ := writeLimbs_ok B hB f_arr n32 hflen n32 0 s (by omega)
      obtain ⟨s2, hs2⟩ := hB.setsig msb lsb i s1
      simp only [hs1, hs2]
      exact ih (i + 1) s2

theorem writeValues_panic_of_neg {S : Type} (B : Bridge S) (hB : TotalBridge B)
    (n32 msb lsb : Nat) :
    ∀ (vals : List Int) (i : Nat) (s : S), (∃ v ∈ vals, v < 0) →
      writeValues B n32 msb lsb vals i s = .panic := by
  intro vals
  induction vals with
  | nil => intro i s h; simp at h
  | cons v vs ih =>
    intro i s h
    rw [writeValues]
    cases hta : to_array32 v n32 with
    | none => simp
    | some f_arr =>
      have hv0 : ¬ v < 0 := by
        intro hneg
        rw [to_array32_neg_panics v n32 hneg] at hta
        exact Option.noConfusion hta
      obtain ⟨x, hx, hxneg⟩ := h
      have hxvs : x ∈ vs := by
        rcases List.mem_cons.mp hx with rfl | h'
        · exact absurd hxneg hv0
        · exact h'
      have hflen : f_arr.length = n32 := by
        have := to_array32_go_length n32 v (List.replicate n32 0) f_arr hta
        simpa using this
      obtain ⟨s1, hs1⟩ := writeLimbs_ok B hB f_arr n32 hflen n32 0 s (by omega)
      obtain ⟨s2, hs2⟩ := hB.setsig msb lsb i s1
      simp only [hs1, hs2]
      exact ih (i + 1) s2 ⟨x, hxvs, hxneg⟩

theorem writeInputs_panic_of_neg {S : Type} (B : Bridge S) (hB : TotalBridge B)
    (n32 : Nat) :
    ∀ (inputs : List (String × List Int)) (s : S),
      (∃ e ∈ inputs, ∃ v ∈ e.2, v < 0) →
      writeInputs B n32 inputs s = .panic := by
  intro inputs
  induction inputs with
  | nil => intro s h; simp at h
  | cons e rest ih =>
    intro s h
    obtain ⟨name, values⟩ := e
    rcases h with ⟨e', he', v, hv, hneg⟩
    rw [writeInputs]
    rcases List.mem_cons.mp he' with heq | hrest
    · subst heq
      simp only [writeValues_panic_of_neg B hB n32 (fnv name).1 (fnv name).2
        values 0 s ⟨v, hv, hneg⟩]
    · cases hwv : writeValues B n32 (fnv name).1 (fnv name).2 values 0 s with
      | ok s' => exact ih s' ⟨e', hrest, v, hv, hneg⟩
      | err => exact absurd hwv (writeValues_not_err B hB n32 _ _ values 0 s)
      | panic => rfl

theorem circom_panic_of_neg {S : Type} (B : Bridge S) (hB : TotalBridge B)
    (inputs : List (String × List Int)) (sc : Bool) (s : S)
    (h : ∃ e ∈ inputs, ∃ v ∈ e.2, v < 0) :
    calculate_witness_circom B inputs sc s = .panic := by
  obtain ⟨s1, hs1⟩ := hB.init sc s
  obtain ⟨⟨n32, s2⟩, hs2⟩ := hB.len32 s1
  rw [calculate_witness_circom]
  simp only [hs1, hs2, writeInputs_panic_of_neg B hB n32 inputs s2 h]

/-- C9: on an instance whose host-bridge calls all succeed, an input map
containing a negative value makes both `calculate_witness` and
`calculate_witness_bin` panic (inside `to_array32`, where
`to_u32().unwrap()` fails on a negative truncated remainder) rather
than return `Ok` or an `Err` at the public interface. -/
theorem c9_negative_input_panics {S : Type} (B : Bridge S) (hB : TotalBridge B)
    (inputs : List (String × List Int)) (sc : Bool) (s : S)
    (name : String) (vals : List Int) (v : Int)
    (hmem : (name, vals) ∈ inputs) (hv : v ∈ vals) (hneg : v < 0) :
    calculate_witness B inputs sc s = .panic
    ∧ calculate_witness_bin B inputs sc s = .panic := by
  have hex : ∃ e ∈ inputs, ∃ x ∈ e.2, x < 0 := ⟨(name, vals), hmem, v, hv, hneg⟩
  obtain ⟨s1, hs1⟩ := hB.init sc s
  have hcir := circom_panic_of_neg B hB inputs sc s1 hex
  constructor
  · rw [calculate_witness]
    simp only [hs1, hcir]
  · rw [calculate_witness_bin]
    simp only [hs1, hcir]

/-- Witness for C9: concrete total bridge, input map `{"x": [-1]}`. -/
theorem c9_negative_input_panics_witness :
    calculate_witness trivBridge [("x", [(-1 : Int)])] true () = .panic
    ∧ calculate_witness_bin trivBridge [("x", [(-1 : Int)])] true () = .panic :=
  c9_negative_input_panics trivBridge
    ⟨fun _ s => ⟨s, rfl⟩, fun s => ⟨(1, s), rfl⟩, fun s => ⟨(1, s), rfl⟩,
     fun _ _ s => ⟨s, rfl⟩, fun _ _ _ s => ⟨s, rfl⟩, fun _ s => ⟨s, rfl⟩,
     fun _ s => ⟨(5, s), rfl⟩⟩
    [("x", [(-1 : Int)])] true () "x" [(-1 : Int)] (-1)
    (List.mem_singleton.mpr rfl) (List.mem_singleton.mpr rfl) (by norm_num)

theorem wordsBytes_length (l : List Nat) : (wordsBytes l).length = 4 * l.length := by
  induction l with
  | nil => rfl
  | cons w ws ih =>
    simp [wordsBytes, u32LE, ih]
    omega

theorem save_ok_inv (n32 : Nat) (prime : Int) (version : Nat)
    (wtns : List Nat) (out : List Nat)
    (h : save_witness_from_bin_writer n32 prime version wtns = (.ok (), out)) :
    0 < prime
    ∧ (natBytesLE prime.toNat).length % 4294967296 = (n32 * 4) % 4294967296
    ∧ n32 ≠ 0 := by
  by_cases hp : prime ≤ 0
  · rw [save_witness_from_bin_writer] at h
    simp [hp] at h
  · by_cases hl : (natBytesLE prime.toNat).length % 4294967296 = (n32 * 4) % 4294967296
    · by_cases hz : n32 = 0
      · rw [save_witness_from_bin_writer] at h
        simp [hp, hl, hz] at h
      · exact ⟨not_le.mp hp, hl, hz⟩
    · rw [save_witness_from_bin_writer] at h
      simp [hp, hl] at h

theorem save_ok_eq (n32 : Nat) (prime : Int) (version : Nat) (wtns : List Nat)
    (hp : 0 < prime)
    (hl : (natBytesLE prime.toNat).length % 4294967296 = (n32 * 4) % 4294967296)
    (hz : n32 ≠ 0) :
    save_witness_from_bin_writer n32 prime version wtns
      = (.ok (), [119, 116, 110, 115] ++ u32LE version ++ u32LE 2 ++ u32LE 1
          ++ u64LE ((n32 * 4 + 8) % 4294967296) ++ u32LE ((n32 * 4) % 4294967296)
          ++ natBytesLE prime.toNat
          ++ u32LE ((wtns.length % 4294967296) / n32) ++ u32LE 2
          ++ u64LE (((wtns.length % 4294967296) / n32 * ((n32 * 4) % 4294967296))
              % 4294967296)
          ++ wordsBytes wtns) := by
  rw [save_witness_from_bin_writer]
  simp [not_le.mpr hp, hl, hz, List.append_assoc]

/-- C3 counterexample: with a non-positive cached modulus the call does
fail, but only after the 28-byte header has been written — not with
zero bytes emitted as the claim states. -/
theorem c3_zero_bytes_counterexample :
    (save_witness_from_bin_writer 1 0 1 []).1 = .err
    ∧ (save_witness_from_bin_writer 1 0 1 []).2.length = 28
    ∧ (save_witness_from_bin_writer 1 0 1 []).2 ≠ [] := by
  refine ⟨by decide, by decide, by decide⟩

/-- C3 (amended): if the cached modulus is non-positive or its minimal
little-endian byte form does not have exactly `n32*4` bytes (length
compared as `u32`), `save_witness_from_bin_writer` returns an error —
but the validation runs only after the 28-byte global/section-1 header
has been written, so a failing call emits exactly those 28 bytes (and
no modulus or witness bytes), not zero bytes. -/
theorem c3_validation_after_header (n32 : Nat) (prime : Int) (version : Nat)
    (wtns : List Nat)
    (h : prime ≤ 0
      ∨ (natBytesLE prime.toNat).length % 4294967296 ≠ (n32 * 4) % 4294967296) :
    save_witness_from_bin_writer n32 prime version wtns
      = (.err, wtnsHeader n32 version)
    ∧ (wtnsHeader n32 version).length = 28 := by
  constructor
  · rw [save_witness_from_bin_writer, wtnsHeader]
    by_cases hp : prime ≤ 0
    · simp [hp]
    · rcases h with h | h
      · exact absurd h hp
      · simp [hp, h]
  · rw [wtnsHeader]
    simp [u32LE, u64LE]

/-- Witness for the amended C3 at `n32 = 1`, `prime = 0`. -/
theorem c3_validation_after_header_witness :
    save_witness_from_bin_writer 1 0 1 [] = (.err, wtnsHeader 1 1)
    ∧ (wtnsHeader 1 1).length = 28 :=
  c3_validation_after_header 1 0 1 [] (Or.inl (by norm_num))

/-- C6: every successful save emits the magic bytes "wtns"
(119,116,110,115), the little-endian u32 version, the little-endian
u32 value 2 (number of sections), section id 1, section size
`n32*4 + 8` as little-endian u64, field byte width `n32*4` as
little-endian u32, followed by exactly the `n32*4` little-endian
modulus bytes. -/
theorem c6_header_layout (n32 : Nat) (prime : Int) (version : Nat)
    (wtns : List Nat) (out : List Nat)
    (hsec : n32 * 4 + 8 < 4294967296)
    (hplen : (natBytesLE prime.toNat).length < 4294967296)
    (h : save_witness_from_bin_writer n32 prime version wtns = (.ok (), out)) :
    ∃ rest, out = [119, 116, 110, 115] ++ u32LE version ++ u32LE 2 ++ u32LE 1
        ++ u64LE (n32 * 4 + 8) ++ u32LE (n32 * 4)
        ++ natBytesLE prime.toNat ++ rest
      ∧ (natBytesLE prime.toNat).length = n32 * 4 := by
  obtain ⟨hp, hl, hz⟩ := save_ok_inv n32 prime version wtns out h
  rw [save_ok_eq n32 prime version wtns hp hl hz] at h
  simp at h
  have hfs : (n32 * 4) % 4294967296 = n32 * 4 := Nat.mod_eq_of_lt (by omega)
  have hss : (n32 * 4 + 8) % 4294967296 = n32 * 4 + 8 := Nat.mod_eq_of_lt hsec
  have hplen4 : (natBytesLE prime.toNat).length = n32 * 4 := by
    rw [Nat.mod_eq_of_lt hplen, hfs] at hl
    exact hl
  refine ⟨u32LE ((wtns.length % 4294967296) / n32) ++ u32LE 2
    ++ u64LE (((wtns.length % 4294967296) / n32 * ((n32 * 4) % 4294967296))
        % 4294967296)
    ++ wordsBytes wtns, ?_, hplen4⟩
  rw [← h, hfs, hss]
  simp [List.append_assoc]

/-- Witness for C6 at `n32 = 1`, `prime = 2^24` (4 bytes), one word. -/
theorem c6_header_layout_witness :
    ∃ rest, (save_witness_from_bin_writer 1 16777216 7 [9]).2
        = [119, 116, 110, 115] ++ u32LE 7 ++ u32LE 2 ++ u32LE 1
          ++ u64LE (1 * 4 + 8) ++ u32LE (1 * 4)
          ++ natBytesLE (16777216 : Int).toNat ++ rest
      ∧ (natBytesLE (16777216 : Int).toNat).length = 1 * 4 :=
  c6_header_layout 1 16777216 7 [9] (save_witness_from_bin_writer 1 16777216 7 [9]).2
    (by norm_num) (by decide) (by decide)

/-- C10: a successful save with a word count that is not a multiple of
`n32` still emits all words, yet declares `witnessElementCount =
wtns.len() / n32` and a section-2 size of `(wtns.len() / n32) * n32 * 4`
bytes, which understates the `4 * wtns.len()` payload bytes actually
written. -/
theorem c10_section2_size_understates (n32 : Nat) (prime : Int) (version : Nat)
    (wtns : List Nat) (out : List Nat)
    (hsec : n32 * 4 + 8 < 4294967296)
    (hlen : wtns.length < 4294967296)
    (hsz : wtns.length / n32 * (n32 * 4) < 4294967296)
    (hnd : ¬ n32 ∣ wtns.length)
    (h : save_witness_from_bin_writer n32 prime version wtns = (.ok (), out)) :
    ∃ pre, out = pre ++ u32LE (wtns.length / n32) ++ u32LE 2
        ++ u64LE (wtns.length / n32 * (n32 * 4)) ++ wordsBytes wtns
      ∧ (wordsBytes wtns).length = 4 * wtns.length
      ∧ wtns.length / n32 * (n32 * 4) < 4 * wtns.length := by
  obtain ⟨hp, hl, hz⟩ := save_ok_inv n32 prime version wtns out h
  rw [save_ok_eq n32 prime version wtns hp hl hz] at h
  simp at h
  have hfs : (n32 * 4) % 4294967296 = n32 * 4 := Nat.mod_eq_of_lt (by omega)
  have hwl : wtns.length % 4294967296 = wtns.length := Nat.mod_eq_of_lt hlen
  have hs2 : wtns.length / n32 * (n32 * 4) % 4294967296
      = wtns.length / n32 * (n32 * 4) := Nat.mod_eq_of_lt hsz
  have h1 := Nat.div_add_mod wtns.length n32
  have h2 : wtns.length % n32 ≠ 0 := fun hmod => hnd (Nat.dvd_of_mod_eq_zero hmod)
  have h3 : n32 * (wtns.length / n32) < wtns.length := by omega
  have h4 : wtns.length / n32 * (n32 * 4) < 4 * wtns.length := by
    calc wtns.length / n32 * (n32 * 4) = 4 * (n32 * (wtns.length / n32)) := by ring
      _ < 4 * wtns.length := by omega
  refine ⟨[119, 116, 110, 115] ++ u32LE version ++ u32LE 2 ++ u32LE 1
    ++ u64LE ((n32 * 4 + 8) % 4294967296) ++ u32LE ((n32 * 4) % 4294967296)
    ++ natBytesLE prime.toNat, ?_, wordsBytes_length wtns, h4⟩
  rw [← h, hfs, hwl, hs2]
  simp [List.append_assoc]

/-- Witness for C10 at `n32 = 2`, `prime = 2^56` (8 bytes), 3 words. -/
theorem c10_section2_size_understates_witness :
    ∃ pre, (save_witness_from_bin_writer 2 72057594037927936 1 [1, 2, 3]).2
        = pre ++ u32LE (([1, 2, 3] : List Nat).length / 2) ++ u32LE 2
          ++ u64LE (([1, 2, 3] : List Nat).length / 2 * (2 * 4))
          ++ wordsBytes [1, 2, 3]
      ∧ (wordsBytes [1, 2, 3]).length = 4 * ([1, 2, 3] : List Nat).length
      ∧ ([1, 2, 3] : List Nat).length / 2 * (2 * 4)
          < 4 * ([1, 2, 3] : List Nat).length :=
  c10_section2_size_understates 2 72057594037927936 1 [1, 2, 3]
    (save_witness_from_bin_writer 2 72057594037927936 1 [1, 2, 3]).2
    (by norm_num) (by decide) (by decide) (by decide) (by decide)
